import Mathlib

/-!
Shallow embedding of the optimization module
`mlrefined_libraries/superlearn_library/optimimzers.py` (class `MyOptimizers`):
`gradient_descent`, `backtracking`, and `newtons_method`.

Modelling conventions:
* Numpy column vectors of shape (n,1) are `List α` of length n; scalars are
  elements of a generic `LinearOrderedField α` (floating point is idealized as
  exact field arithmetic; all concrete instantiations below use `ℚ`).
* External library primitives are passed as explicit parameters, with their
  documented mathematical contracts assumed pointwise where a theorem needs
  them: `sqrtF` models the square root inside `np.linalg.norm`, `rnd k` models
  the `np.random.rand(1)` draw of iteration `k`, `gradF`/`hessF` model the
  autograd gradient/hessian oracles (returning `none` when the evaluation
  would raise, e.g. a non-callable objective), and `pinvF` models
  `np.linalg.pinv` (Moore-Penrose pseudo-inverse).
* A Python exception is `Except.error ()`; a normal return is `Except.ok`.
* The unbounded `while` loop of `backtracking` is given a fuel parameter;
  `none` means the loop is still running after that many tests, so
  divergence of the loop is `∀ fuel, result = none`.
-/

variable {α : Type} [LinearOrderedField α]

/-- Column vectors (numpy arrays of shape (n,1)). -/
abbrev Vec (α : Type) := List α

/-- Dot product of two vectors (`np.dot` on flat data). -/
def dot (u v : Vec α) : α := (List.zipWith (· * ·) u v).sum

/-- Sum of squares of the entries: the square of the Euclidean norm. -/
def normSq (v : Vec α) : α := dot v v

/-- Componentwise difference `u - v`. -/
def vsub (u v : Vec α) : Vec α := List.zipWith (· - ·) u v

/-- Scalar multiple `c * v`. -/
def smul (c : α) (v : Vec α) : Vec α := v.map (fun x => c * x)

/-- Componentwise division `v / c` (the numpy broadcast `grad_eval /= grad_norm`). -/
def vdivs (v : Vec α) (c : α) : Vec α := v.map (fun x => x / c)

/-- `np.sign`: -1, 0 or 1 according to the sign of the argument. -/
def npSign (x : α) : α := if 0 < x then 1 else if x < 0 then -1 else 0

/-- `np.linalg.norm v` = square root of the sum of squares, with the float
square root modelled by the parameter `sqrtF`. -/
def npNorm (sqrtF : α → α) (v : Vec α) : α := sqrtF (normSq v)

/-- Input coercion shared by both optimizers: a scalar `w` becomes the
one-entry column vector, a sequence becomes the column vector of its
entries (`np.asarray` + `w.shape = (np.size(w),1)`). -/
def toColVec (w : α ⊕ List α) : Vec α :=
  match w with
  | .inl s => [s]
  | .inr v => v

/-- The guarded divisor of the normalized branch of `gradient_descent`:
`grad_norm = np.linalg.norm(grad_eval)`, and when it is zero the code does
`grad_norm += 10**-6 * np.sign(2*np.random.rand(1)-1)` with draw `r`. -/
def gdGradNorm (sqrtF : α → α) (r : α) (grad_eval : Vec α) : α :=
  let grad_norm := npNorm sqrtF grad_eval
  if grad_norm = 0 then grad_norm + 1 / 10 ^ 6 * npSign (2 * r - 1) else grad_norm

/-- The descent direction actually multiplied by the steplength: the raw
gradient for the default version, `grad_eval / grad_norm` for
`version = "normalized"`. -/
def gdDirection (sqrtF : α → α) (version : String) (r : α) (grad_eval : Vec α) : Vec α :=
  if version = "normalized" then vdivs grad_eval (gdGradNorm sqrtF r grad_eval)
  else grad_eval

/-- One gradient descent update `w ← w - alpha * grad_eval` (post processing). -/
def gdStep (sqrtF : α → α) (version : String) (r : α) (alpha : α)
    (w grad_eval : Vec α) : Vec α :=
  vsub w (smul alpha (gdDirection sqrtF version r grad_eval))

/-- The `for k in range(max_its)` loop of `gradient_descent`, returning the
list of iterates appended after the initial point.  Each pass evaluates the
gradient (`none` = the evaluation raises), re-shapes it to `(len w, 1)`
(an exception when the size does not match), and takes one step. -/
def gdIter (gradF : Vec α → Option (Vec α)) (sqrtF : α → α) (rnd : ℕ → α)
    (alpha : α) (version : String) : ℕ → ℕ → Vec α → Except Unit (List (Vec α))
  | 0, _, _ => .ok []
  | fuel + 1, k, w =>
    match gradF w with
    | none => .error ()
    | some grad_eval =>
      if grad_eval.length = w.length then
        let w' := gdStep sqrtF version (rnd k) alpha w grad_eval
        match gdIter gradF sqrtF rnd alpha version fuel (k + 1) w' with
        | .error e => .error e
        | .ok rest => .ok (w' :: rest)
      else .error ()

/-- `MyOptimizers.gradient_descent`, with the kwargs already resolved to the
values `max_its`, `version`, `alpha` (a negative `max_its` runs zero loop
passes, as `range` does). -/
def gradient_descent (gradF : Vec α → Option (Vec α)) (sqrtF : α → α) (rnd : ℕ → α)
    (w0 : α ⊕ List α) (max_its : ℤ) (version : String) (alpha : α) :
    Except Unit (List (Vec α)) :=
  let w := toColVec w0
  match gdIter gradF sqrtF rnd alpha version max_its.toNat 0 w with
  | .error e => .error e
  | .ok rest => .ok (w :: rest)

/-- Default `max_its` of `gradient_descent`. -/
def gd_default_max_its : ℤ := 100

/-- Default steplength `alpha = 10**-4` of `gradient_descent`. -/
def gd_default_alpha : α := 1 / 10 ^ 4

/-- Default `version` of `gradient_descent`. -/
def gd_default_version : String := "unnormalized"

/-- The `while` loop of `backtracking`, with precomputed `func_eval` and
`grad_norm`; `fuel` bounds the number of condition tests, `none` meaning the
loop is still running after `fuel` tests. -/
def backtracking_loop (g : Vec α → Option α) (w grad_eval : Vec α)
    (func_eval grad_norm : α) : ℕ → α → Option (Except Unit α)
  | 0, _ => none
  | fuel + 1, alpha =>
    match g (vsub w (smul alpha grad_eval)) with
    | none => some (.error ())
    | some v =>
      if func_eval - alpha * (1 / 2) * grad_norm < v then
        backtracking_loop g w grad_eval func_eval grad_norm fuel (8 / 10 * alpha)
      else some (.ok alpha)

/-- `MyOptimizers.backtracking`: trial step 1, shrink factor 0.8,
`grad_norm = np.linalg.norm(grad_eval)**2`. -/
def backtracking (g : Vec α → Option α) (sqrtF : α → α) (w grad_eval : Vec α)
    (fuel : ℕ) : Option (Except Unit α) :=
  match g w with
  | none => some (.error ())
  | some func_eval =>
    backtracking_loop g w grad_eval func_eval (npNorm sqrtF grad_eval ^ 2) fuel 1

/-- Square matrices as lists of rows. -/
abbrev Mat (α : Type) := List (List α)

/-- `np.eye n`. -/
def eye (n : ℕ) : Mat α :=
  (List.range n).map (fun i => (List.range n).map (fun j => if i = j then (1 : α) else 0))

/-- The n-by-n zero matrix. -/
def zeroMat (n : ℕ) : Mat α := List.replicate n (List.replicate n (0 : α))

/-- Componentwise matrix sum. -/
def matAdd (M N : Mat α) : Mat α := List.zipWith (List.zipWith (· + ·)) M N

/-- Scalar multiple of a matrix. -/
def smulMat (c : α) (M : Mat α) : Mat α := M.map (fun row => row.map (fun x => c * x))

/-- `np.dot M v` for a matrix and a column vector. -/
def mulVec (M : Mat α) (v : Vec α) : Vec α := M.map (fun row => dot row v)

/-- One Newton update:
`w ← w - np.dot(np.linalg.pinv(hess_val + epsilon*np.eye(size w)), grad_val)`,
with `np.linalg.pinv` modelled by the parameter `pinvF`. -/
def newtonStep (pinvF : Mat α → Mat α) (epsilon : α) (hess_val : Mat α)
    (grad_val w : Vec α) : Vec α :=
  vsub w (mulVec (pinvF (matAdd hess_val (smulMat epsilon (eye w.length)))) grad_val)

/-- The `for k in range(max_its)` loop of `newtons_method`: evaluate gradient
and hessian (an exception when either raises or when the hessian cannot be
re-shaped to `(size w, size w)`), take the damped-pseudo-inverse step, then
eject without recording the candidate whenever the objective increased. -/
def newtonIter (g : Vec α → Option α) (gradF : Vec α → Option (Vec α))
    (hessF : Vec α → Option (Mat α)) (pinvF : Mat α → Mat α) (epsilon : α) :
    ℕ → Vec α → α → Except Unit (List (Vec α))
  | 0, _, _ => .ok []
  | fuel + 1, w, geval_old =>
    match gradF w, hessF w with
    | some grad_val, some hess_val =>
      if hess_val.length = w.length ∧ ∀ row ∈ hess_val, row.length = w.length then
        let w' := newtonStep pinvF epsilon hess_val grad_val w
        match g w' with
        | none => .error ()
        | some geval_new =>
          if geval_old < geval_new then .ok []
          else
            match newtonIter g gradF hessF pinvF epsilon fuel w' geval_new with
            | .error e => .error e
            | .ok rest => .ok (w' :: rest)
      else .error ()
    | _, _ => .error ()

/-- `MyOptimizers.newtons_method`, kwargs resolved to `max_its`, `epsilon`.
The objective is evaluated once at the initial point before the loop. -/
def newtons_method (g : Vec α → Option α) (gradF : Vec α → Option (Vec α))
    (hessF : Vec α → Option (Mat α)) (pinvF : Mat α → Mat α)
    (w0 : α ⊕ List α) (max_its : ℤ) (epsilon : α) : Except Unit (List (Vec α)) :=
  let w := toColVec w0
  match g w with
  | none => .error ()
  | some geval_old =>
    match newtonIter g gradF hessF pinvF epsilon max_its.toNat w geval_old with
    | .error e => .error e
    | .ok rest => .ok (w :: rest)

/-- Default `max_its` of `newtons_method`. -/
def nm_default_max_its : ℤ := 20

/-- Default damping `epsilon = 10**-5` of `newtons_method`. -/
def nm_default_epsilon : α := 1 / 10 ^ 5

/-- The sufficient-decrease (Armijo) condition of the spec:
`objective(w - alpha*grad_eval) <= objective(w) - alpha*0.5*normSq grad_eval`
(for an exact square root, `normSq` is the squared Euclidean norm). -/
def SuffDecrease (gf : Vec α → α) (w grad_eval : Vec α) (alpha : α) : Prop :=
  gf (vsub w (smul alpha grad_eval)) ≤ gf w - alpha * (1 / 2) * normSq grad_eval

/-- The objective `g(v) = |v 0|` used to exhibit a non-terminating
backtracking line search. -/
def gAbsF (v : Vec ℚ) : ℚ := |v.headD 0|

example : gradient_descent (α := ℚ) (fun v => some (v.map (fun x => 2 * x)))
    (fun _ => 0) (fun _ => 0) (.inr [5]) 1 "unnormalized" (1 / 10) =
    .ok [[5], [4]] := by
  have h : ("unnormalized" : String) ≠ "normalized" := by decide
  norm_num [gradient_descent, gdIter, gdStep, gdDirection, toColVec, vsub, smul, if_neg h]

/-! ### Basic vector and matrix lemmas -/

theorem dot_cons (a b : α) (u v : Vec α) : dot (a :: u) (b :: v) = a * b + dot u v := rfl

theorem dot_replicate_zero_left (n : ℕ) (v : Vec α) :
    dot (List.replicate n (0 : α)) v = 0 := by
  induction v generalizing n with
  | nil => cases n <;> simp [dot]
  | cons a v ih =>
    cases n with
    | zero => simp [dot]
    | succ m => simpa [List.replicate_succ, dot_cons] using ih m

theorem normSq_nonneg (v : Vec α) : 0 ≤ normSq v := by
  induction v with
  | nil => simp [normSq, dot]
  | cons a v ih =>
    have h := mul_self_nonneg a
    simpa [normSq, dot_cons] using add_nonneg h ih

theorem normSq_cons (a : α) (v : Vec α) : normSq (a :: v) = a * a + normSq v := rfl

theorem normSq_replicate_zero (n : ℕ) : normSq (List.replicate n (0 : α)) = 0 := by
  simpa [normSq] using dot_replicate_zero_left n (List.replicate n (0 : α))

theorem vdivs_cons (a c : α) (v : Vec α) : vdivs (a :: v) c = a / c :: vdivs v c := rfl

theorem normSq_vdivs (v : Vec α) (c : α) : normSq (vdivs v c) = normSq v / (c * c) := by
  induction v with
  | nil => simp [normSq, dot, vdivs]
  | cons a v ih =>
    rw [vdivs_cons, normSq_cons, normSq_cons, ih, div_mul_div_comm, div_add_div_same]

theorem vdivs_replicate_zero (n : ℕ) (c : α) :
    vdivs (List.replicate n (0 : α)) c = List.replicate n 0 := by
  simp [vdivs, List.map_replicate]

theorem smul_replicate_zero (n : ℕ) (c : α) :
    smul c (List.replicate n (0 : α)) = List.replicate n 0 := by
  simp [smul, List.map_replicate]

theorem vsub_replicate_zero (w : Vec α) : vsub w (List.replicate w.length 0) = w := by
  induction w with
  | nil => rfl
  | cons a w ih => simpa [vsub, List.replicate_succ] using ih

theorem smul_length (c : α) (v : Vec α) : (smul c v).length = v.length := by
  simp [smul]

theorem vdivs_length (v : Vec α) (c : α) : (vdivs v c).length = v.length := by
  simp [vdivs]

theorem vsub_length (u v : Vec α) : (vsub u v).length = min u.length v.length := by
  simp [vsub]

theorem mulVec_length (M : Mat α) (v : Vec α) : (mulVec M v).length = M.length := by
  simp [mulVec]

theorem gdDirection_length (sqrtF : α → α) (version : String) (r : α) (ge : Vec α) :
    (gdDirection sqrtF version r ge).length = ge.length := by
  unfold gdDirection
  split <;> simp [vdivs_length]

theorem gdStep_length (sqrtF : α → α) (version : String) (r alpha : α) (w ge : Vec α)
    (h : ge.length = w.length) : (gdStep sqrtF version r alpha w ge).length = w.length := by
  simp [gdStep, vsub_length, smul_length, gdDirection_length, h]

/-! ### Inversion lemmas for the gradient descent loop -/

theorem gdIter_zero (gradF : Vec α → Option (Vec α)) (sqrtF : α → α) (rnd : ℕ → α)
    (alpha : α) (version : String) (k : ℕ) (w : Vec α) :
    gdIter gradF sqrtF rnd alpha version 0 k w = .ok [] := rfl

theorem gdIter_succ_ok (gradF : Vec α → Option (Vec α)) (sqrtF : α → α) (rnd : ℕ → α)
    (alpha : α) (version : String) (m k : ℕ) (w : Vec α) (rest : List (Vec α))
    (h : gdIter gradF sqrtF rnd alpha version (m + 1) k w = .ok rest) :
    ∃ ge rest', gradF w = some ge ∧ ge.length = w.length ∧
      gdIter gradF sqrtF rnd alpha version m (k + 1)
        (gdStep sqrtF version (rnd k) alpha w ge) = .ok rest' ∧
      rest = gdStep sqrtF version (rnd k) alpha w ge :: rest' := by
  rw [gdIter] at h
  cases hg : gradF w with
  | none => rw [hg] at h; exact absurd h (by simp)
  | some ge =>
    rw [hg] at h
    simp only at h
    by_cases hlen : ge.length = w.length
    · rw [if_pos hlen] at h
      cases hrec : gdIter gradF sqrtF rnd alpha version m (k + 1)
          (gdStep sqrtF version (rnd k) alpha w ge) with
      | error e => rw [hrec] at h; exact absurd h (by simp)
      | ok rest' =>
        rw [hrec] at h
        simp only [Except.ok.injEq] at h
        exact ⟨ge, rest', rfl, hlen, hrec, h.symm⟩
    · rw [if_neg hlen] at h
      exact absurd h (by simp)

theorem gdIter_ok_length (gradF : Vec α → Option (Vec α)) (sqrtF : α → α) (rnd : ℕ → α)
    (alpha : α) (version : String) :
    ∀ (m k : ℕ) (w : Vec α) (rest : List (Vec α)),
      gdIter gradF sqrtF rnd alpha version m k w = .ok rest → rest.length = m := by
  intro m
  induction m with
  | zero =>
    intro k w rest h
    rw [gdIter_zero] at h
    simp only [Except.ok.injEq] at h
    simp [← h]
  | succ m ih =>
    intro k w rest h
    obtain ⟨ge, rest', _, _, hrec, hrest⟩ := gdIter_succ_ok _ _ _ _ _ _ _ _ _ h
    subst hrest
    simp [ih _ _ _ hrec]

theorem gdIter_ok_mem_length (gradF : Vec α → Option (Vec α)) (sqrtF : α → α) (rnd : ℕ → α)
    (alpha : α) (version : String) :
    ∀ (m k : ℕ) (w : Vec α) (rest : List (Vec α)),
      gdIter gradF sqrtF rnd alpha version m k w = .ok rest →
      ∀ v ∈ rest, v.length = w.length := by
  intro m
  induction m with
  | zero =>
    intro k w rest h
    rw [gdIter_zero] at h
    simp only [Except.ok.injEq] at h
    simp [← h]
  | succ m ih =>
    intro k w rest h
    obtain ⟨ge, rest', _, hlen, hrec, hrest⟩ := gdIter_succ_ok _ _ _ _ _ _ _ _ _ h
    subst hrest
    intro v hv
    rcases List.mem_cons.1 hv with hv | hv
    · rw [hv]; exact gdStep_length _ _ _ _ _ _ hlen
    · rw [ih _ _ _ hrec v hv]; exact gdStep_length _ _ _ _ _ _ hlen

theorem gdIter_consecutive (gf : Vec α → Vec α) (sqrtF : α → α) (rnd : ℕ → α)
    (alpha : α) (version : String) :
    ∀ (m k : ℕ) (w : Vec α) (rest : List (Vec α)),
      gdIter (fun v => some (gf v)) sqrtF rnd alpha version m k w = .ok rest →
      ∀ (i : ℕ) (w₁ w₂ : Vec α), (w :: rest)[i]? = some w₁ → (w :: rest)[i + 1]? = some w₂ →
        w₂ = gdStep sqrtF version (rnd (k + i)) alpha w₁ (gf w₁) := by
  intro m
  induction m with
  | zero =>
    intro k w rest h i w₁ w₂ h₁ h₂
    rw [gdIter_zero] at h
    simp only [Except.ok.injEq] at h
    subst h
    simp at h₂
  | succ m ih =>
    intro k w rest h i w₁ w₂ h₁ h₂
    obtain ⟨ge, rest', hg, hlen, hrec, hrest⟩ := gdIter_succ_ok _ _ _ _ _ _ _ _ _ h
    have hge : ge = gf w := by simpa using hg.symm
    subst hge hrest
    cases i with
    | zero =>
      simp only [List.getElem?_cons_zero, Option.some.injEq] at h₁
      simp only [List.getElem?_cons_succ, List.getElem?_cons_zero, Option.some.injEq] at h₂
      subst h₁
      simp [← h₂]
    | succ j =>
      rw [List.getElem?_cons_succ] at h₁ h₂
      have := ih (k + 1) _ _ hrec j w₁ w₂ h₁ h₂
      rw [this]
      have hkj : k + 1 + j = k + (j + 1) := by omega
      rw [hkj]

theorem gdStep_rnd_irrel (sqrtF : α → α) (version : String) (r₁ r₂ alpha : α) (w ge : Vec α)
    (hnz : version = "normalized" → npNorm sqrtF ge ≠ 0) :
    gdStep sqrtF version r₁ alpha w ge = gdStep sqrtF version r₂ alpha w ge := by
  unfold gdStep gdDirection gdGradNorm
  by_cases hv : version = "normalized"
  · rw [if_pos hv, if_pos hv, if_neg (hnz hv), if_neg (hnz hv)]
  · rw [if_neg hv, if_neg hv]

theorem gdIter_rnd_irrel (gradF : Vec α → Option (Vec α)) (sqrtF : α → α) (rnd₁ rnd₂ : ℕ → α)
    (alpha : α) (version : String) :
    ∀ (m k₁ k₂ : ℕ) (w : Vec α) (rest : List (Vec α)),
      gdIter gradF sqrtF rnd₁ alpha version m k₁ w = .ok rest →
      (version = "normalized" →
        ∀ v ∈ w :: rest, ∀ ge, gradF v = some ge → npNorm sqrtF ge ≠ 0) →
      gdIter gradF sqrtF rnd₂ alpha version m k₂ w = .ok rest := by
  intro m
  induction m with
  | zero =>
    intro k₁ k₂ w rest h _
    rw [gdIter_zero] at h ⊢
    exact h
  | succ m ih =>
    intro k₁ k₂ w rest h hnz
    obtain ⟨ge, rest', hg, hlen, hrec, hrest⟩ := gdIter_succ_ok _ _ _ _ _ _ _ _ _ h
    subst hrest
    have hstep : gdStep sqrtF version (rnd₂ k₂) alpha w ge =
        gdStep sqrtF version (rnd₁ k₁) alpha w ge :=
      gdStep_rnd_irrel _ _ _ _ _ _ _
        (fun hv => hnz hv w (List.mem_cons_self _ _) ge hg)
    have hrec₂ : gdIter gradF sqrtF rnd₂ alpha version m (k₂ + 1)
        (gdStep sqrtF version (rnd₁ k₁) alpha w ge) = .ok rest' :=
      ih _ _ _ _ hrec (fun hv v hv' ge' hg' =>
        hnz hv v (List.mem_cons_of_mem _ hv') ge' hg')
    rw [gdIter, hg]
    simp only
    rw [if_pos hlen, hstep, hrec₂]

theorem gdIter_total_ok (gradF : Vec α → Option (Vec α)) (sqrtF : α → α) (rnd : ℕ → α)
    (alpha : α) (version : String)
    (htot : ∀ v, ∃ ge, gradF v = some ge ∧ ge.length = v.length) :
    ∀ (m k : ℕ) (w : Vec α), ∃ rest, gdIter gradF sqrtF rnd alpha version m k w = .ok rest := by
  intro m
  induction m with
  | zero => intro k w; exact ⟨[], gdIter_zero _ _ _ _ _ _ _⟩
  | succ m ih =>
    intro k w
    obtain ⟨ge, hg, hlen⟩ := htot w
    obtain ⟨rest', hrec⟩ := ih (k + 1) (gdStep sqrtF version (rnd k) alpha w ge)
    refine ⟨gdStep sqrtF version (rnd k) alpha w ge :: rest', ?_⟩
    rw [gdIter, hg]
    simp only
    rw [if_pos hlen, hrec]

theorem gradient_descent_ok (gradF : Vec α → Option (Vec α)) (sqrtF : α → α) (rnd : ℕ → α)
    (w0 : α ⊕ List α) (max_its : ℤ) (version : String) (alpha : α) (hst : List (Vec α))
    (h : gradient_descent gradF sqrtF rnd w0 max_its version alpha = .ok hst) :
    ∃ rest, gdIter gradF sqrtF rnd alpha version max_its.toNat 0 (toColVec w0) = .ok rest ∧
      hst = toColVec w0 :: rest := by
  simp only [gradient_descent] at h
  cases hit : gdIter gradF sqrtF rnd alpha version max_its.toNat 0 (toColVec w0) with
  | error e => rw [hit] at h; exact absurd h (by simp)
  | ok rest =>
    rw [hit] at h
    simp only [Except.ok.injEq] at h
    exact ⟨rest, rfl, h.symm⟩

theorem gradient_descent_of_gdIter (gradF : Vec α → Option (Vec α)) (sqrtF : α → α)
    (rnd : ℕ → α) (w0 : α ⊕ List α) (max_its : ℤ) (version : String) (alpha : α)
    (rest : List (Vec α))
    (h : gdIter gradF sqrtF rnd alpha version max_its.toNat 0 (toColVec w0) = .ok rest) :
    gradient_descent gradF sqrtF rnd w0 max_its version alpha = .ok (toColVec w0 :: rest) := by
  simp only [gradient_descent]
  rw [h]

/-! ### Inversion lemmas for the Newton loop -/

theorem newtonIter_zero (g : Vec α → Option α) (gradF : Vec α → Option (Vec α))
    (hessF : Vec α → Option (Mat α)) (pinvF : Mat α → Mat α) (epsilon : α)
    (w : Vec α) (gold : α) :
    newtonIter g gradF hessF pinvF epsilon 0 w gold = .ok [] := rfl

theorem newtonIter_succ_ok (g : Vec α → Option α) (gradF : Vec α → Option (Vec α))
    (hessF : Vec α → Option (Mat α)) (pinvF : Mat α → Mat α) (epsilon : α)
    (m : ℕ) (w : Vec α) (gold : α) (rest : List (Vec α))
    (h : newtonIter g gradF hessF pinvF epsilon (m + 1) w gold = .ok rest) :
    ∃ gv hv, gradF w = some gv ∧ hessF w = some hv ∧
      (hv.length = w.length ∧ ∀ row ∈ hv, row.length = w.length) ∧
      ∃ gn, g (newtonStep pinvF epsilon hv gv w) = some gn ∧
        ((gold < gn ∧ rest = []) ∨
         (¬ gold < gn ∧ ∃ rest',
            newtonIter g gradF hessF pinvF epsilon m
              (newtonStep pinvF epsilon hv gv w) gn = .ok rest' ∧
            rest = newtonStep pinvF epsilon hv gv w :: rest')) := by
  rw [newtonIter] at h
  cases hg : gradF w with
  | none => rw [hg] at h; exact absurd h (by simp)
  | some gv =>
    cases hh : hessF w with
    | none => rw [hg, hh] at h; exact absurd h (by simp)
    | some hv =>
      rw [hg, hh] at h
      simp only at h
      by_cases hsq : hv.length = w.length ∧ ∀ row ∈ hv, row.length = w.length
      · rw [if_pos hsq] at h
        cases hgn : g (newtonStep pinvF epsilon hv gv w) with
        | none => rw [hgn] at h; exact absurd h (by simp)
        | some gn =>
          rw [hgn] at h
          simp only at h
          by_cases hlt : gold < gn
          · rw [if_pos hlt] at h
            simp only [Except.ok.injEq] at h
            exact ⟨gv, hv, rfl, rfl, hsq, gn, hgn, .inl ⟨hlt, h.symm⟩⟩
          · rw [if_neg hlt] at h
            cases hrec : newtonIter g gradF hessF pinvF epsilon m
                (newtonStep pinvF epsilon hv gv w) gn with
            | error e => rw [hrec] at h; exact absurd h (by simp)
            | ok rest' =>
              rw [hrec] at h
              simp only [Except.ok.injEq] at h
              exact ⟨gv, hv, rfl, rfl, hsq, gn, hgn, .inr ⟨hlt, rest', hrec, h.symm⟩⟩
      · rw [if_neg hsq] at h
        exact absurd h (by simp)

theorem newtonIter_ok_length_le (g : Vec α → Option α) (gradF : Vec α → Option (Vec α))
    (hessF : Vec α → Option (Mat α)) (pinvF : Mat α → Mat α) (epsilon : α) :
    ∀ (m : ℕ) (w : Vec α) (gold : α) (rest : List (Vec α)),
      newtonIter g gradF hessF pinvF epsilon m w gold = .ok rest → rest.length ≤ m := by
  intro m
  induction m with
  | zero =>
    intro w gold rest h
    rw [newtonIter_zero] at h
    simp only [Except.ok.injEq] at h
    simp [← h]
  | succ m ih =>
    intro w gold rest h
    obtain ⟨gv, hv, _, _, _, gn, _, hca⟩ := newtonIter_succ_ok _ _ _ _ _ _ _ _ _ h
    rcases hca with ⟨_, hrest⟩ | ⟨_, rest', hrec, hrest⟩
    · subst hrest; simp
    · subst hrest
      simpa [Nat.succ_le_succ_iff] using ih _ _ _ hrec

theorem matAdd_length (M N : Mat α) : (matAdd M N).length = min M.length N.length := by
  simp [matAdd]

theorem smulMat_length (c : α) (M : Mat α) : (smulMat c M).length = M.length := by
  simp [smulMat]

theorem eye_length (n : ℕ) : (eye (α := α) n).length = n := by
  simp [eye]

theorem newtonStep_length (pinvF : Mat α → Mat α) (epsilon : α) (hv : Mat α)
    (gv w : Vec α) (hpinv : ∀ M, (pinvF M).length = M.length)
    (hhv : hv.length = w.length) :
    (newtonStep pinvF epsilon hv gv w).length = w.length := by
  simp [newtonStep, vsub_length, mulVec_length, hpinv, matAdd_length, smulMat_length,
    eye_length, hhv]

theorem newtonIter_mem_length (g : Vec α → Option α) (gradF : Vec α → Option (Vec α))
    (hessF : Vec α → Option (Mat α)) (pinvF : Mat α → Mat α) (epsilon : α)
    (hpinv : ∀ M, (pinvF M).length = M.length) :
    ∀ (m : ℕ) (w : Vec α) (gold : α) (rest : List (Vec α)),
      newtonIter g gradF hessF pinvF epsilon m w gold = .ok rest →
      ∀ v ∈ rest, v.length = w.length := by
  intro m
  induction m with
  | zero =>
    intro w gold rest h
    rw [newtonIter_zero] at h
    simp only [Except.ok.injEq] at h
    simp [← h]
  | succ m ih =>
    intro w gold rest h
    obtain ⟨gv, hv, _, _, hsq, gn, _, hca⟩ := newtonIter_succ_ok _ _ _ _ _ _ _ _ _ h
    rcases hca with ⟨_, hrest⟩ | ⟨_, rest', hrec, hrest⟩
    · subst hrest; simp
    · subst hrest
      intro v hv'
      rcases List.mem_cons.1 hv' with hv' | hv'
      · rw [hv']; exact newtonStep_length _ _ _ _ _ hpinv hsq.1
      · rw [ih _ _ _ hrec v hv']; exact newtonStep_length _ _ _ _ _ hpinv hsq.1

theorem newtonIter_divergence (g : Vec α → Option α) (gradF : Vec α → Option (Vec α))
    (hessF : Vec α → Option (Mat α)) (pinvF : Mat α → Mat α) (epsilon : α) :
    ∀ (m : ℕ) (w : Vec α) (gold : α) (rest : List (Vec α)),
      g w = some gold →
      newtonIter g gradF hessF pinvF epsilon m w gold = .ok rest →
      rest.length < m →
      ∃ lw, (w :: rest).getLast? = some lw ∧ ∃ gv hv gl gn,
        gradF lw = some gv ∧ hessF lw = some hv ∧ g lw = some gl ∧
        g (newtonStep pinvF epsilon hv gv lw) = some gn ∧ gl < gn := by
  intro m
  induction m with
  | zero => intro w gold rest _ _ hlen; omega
  | succ m ih =>
    intro w gold rest hgw h hlen
    obtain ⟨gv, hv, hg, hh, hsq, gn, hgn, hca⟩ := newtonIter_succ_ok _ _ _ _ _ _ _ _ _ h
    rcases hca with ⟨hlt, hrest⟩ | ⟨hlt, rest', hrec, hrest⟩
    · subst hrest
      exact ⟨w, rfl, gv, hv, gold, gn, hg, hh, hgw, hgn, hlt⟩
    · subst hrest
      have hlen' : rest'.length < m := by simpa using hlen
      obtain ⟨lw, hlast, hrest⟩ := ih _ _ _ hgn hrec hlen'
      exact ⟨lw, by rw [List.getLast?_cons_cons]; exact hlast, hrest⟩

theorem newtonIter_consecutive (g : Vec α → Option α) (gradF : Vec α → Option (Vec α))
    (hessF : Vec α → Option (Mat α)) (pinvF : Mat α → Mat α) (epsilon : α) :
    ∀ (m : ℕ) (w : Vec α) (gold : α) (rest : List (Vec α)),
      newtonIter g gradF hessF pinvF epsilon m w gold = .ok rest →
      ∀ (i : ℕ) (w₁ w₂ : Vec α), (w :: rest)[i]? = some w₁ → (w :: rest)[i + 1]? = some w₂ →
        ∃ gv hv, gradF w₁ = some gv ∧ hessF w₁ = some hv ∧
          w₂ = newtonStep pinvF epsilon hv gv w₁ := by
  intro m
  induction m with
  | zero =>
    intro w gold rest h i w₁ w₂ h₁ h₂
    rw [newtonIter_zero] at h
    simp only [Except.ok.injEq] at h
    subst h
    simp at h₂
  | succ m ih =>
    intro w gold rest h i w₁ w₂ h₁ h₂
    obtain ⟨gv, hv, hg, hh, hsq, gn, hgn, hca⟩ := newtonIter_succ_ok _ _ _ _ _ _ _ _ _ h
    rcases hca with ⟨hlt, hrest⟩ | ⟨hlt, rest', hrec, hrest⟩
    · subst hrest
      simp at h₂
    · subst hrest
      cases i with
      | zero =>
        simp only [List.getElem?_cons_zero, Option.some.injEq] at h₁
        simp only [List.getElem?_cons_succ, List.getElem?_cons_zero, Option.some.injEq] at h₂
        subst h₁
        exact ⟨gv, hv, hg, hh, h₂.symm⟩
      | succ j =>
        rw [List.getElem?_cons_succ] at h₁ h₂
        exact ih _ _ _ hrec j w₁ w₂ h₁ h₂

theorem newtons_method_ok (g : Vec α → Option α) (gradF : Vec α → Option (Vec α))
    (hessF : Vec α → Option (Mat α)) (pinvF : Mat α → Mat α)
    (w0 : α ⊕ List α) (max_its : ℤ) (epsilon : α) (hst : List (Vec α))
    (h : newtons_method g gradF hessF pinvF w0 max_its epsilon = .ok hst) :
    ∃ gold rest, g (toColVec w0) = some gold ∧
      newtonIter g gradF hessF pinvF epsilon max_its.toNat (toColVec w0) gold = .ok rest ∧
      hst = toColVec w0 :: rest := by
  simp only [newtons_method] at h
  cases hgw : g (toColVec w0) with
  | none => rw [hgw] at h; exact absurd h (by simp)
  | some gold =>
    rw [hgw] at h
    simp only at h
    cases hit : newtonIter g gradF hessF pinvF epsilon max_its.toNat (toColVec w0) gold with
    | error e => rw [hit] at h; exact absurd h (by simp)
    | ok rest =>
      rw [hit] at h
      simp only [Except.ok.injEq] at h
      exact ⟨gold, rest, rfl, hit, h.symm⟩

/-! ### Lemmas for the backtracking line search -/

theorem backtracking_loop_first (gf : Vec α → α) (w ge : Vec α) (fe gn : α) :
    ∀ (fuel j : ℕ) (out : α),
      backtracking_loop (fun v => some (gf v)) w ge fe gn fuel ((8 / 10 : α) ^ j) =
        some (.ok out) →
      ∃ m, j ≤ m ∧ out = (8 / 10 : α) ^ m ∧
        ¬ (fe - (8 / 10 : α) ^ m * (1 / 2) * gn < gf (vsub w (smul ((8 / 10 : α) ^ m) ge))) ∧
        ∀ i, j ≤ i → i < m →
          fe - (8 / 10 : α) ^ i * (1 / 2) * gn < gf (vsub w (smul ((8 / 10 : α) ^ i) ge)) := by
  intro fuel
  induction fuel with
  | zero => intro j out h; rw [backtracking_loop] at h; exact absurd h (by simp)
  | succ fuel ih =>
    intro j out h
    rw [backtracking_loop] at h
    simp only at h
    by_cases hc : fe - (8 / 10 : α) ^ j * (1 / 2) * gn <
        gf (vsub w (smul ((8 / 10 : α) ^ j) ge))
    · rw [if_pos hc] at h
      have hpow : (8 / 10 : α) * (8 / 10 : α) ^ j = (8 / 10 : α) ^ (j + 1) := by
        rw [pow_succ, mul_comm]
      rw [hpow] at h
      obtain ⟨m, hjm, hout, hstop, hloop⟩ := ih (j + 1) out h
      refine ⟨m, by omega, hout, hstop, ?_⟩
      intro i hji him
      rcases Nat.eq_or_lt_of_le hji with hji | hji
      · rw [← hji]; exact hc
      · exact hloop i hji him
    · rw [if_neg hc] at h
      simp only [Option.some.injEq, Except.ok.injEq] at h
      exact ⟨j, le_refl j, h.symm, hc, fun i hji him => absurd (lt_of_le_of_lt hji him)
        (lt_irrefl j)⟩

theorem backtracking_ok (gf : Vec α → α) (sqrtF : α → α) (w ge : Vec α) (fuel : ℕ) (out : α)
    (hs : sqrtF (normSq ge) ^ 2 = normSq ge)
    (h : backtracking (fun v => some (gf v)) sqrtF w ge fuel = some (.ok out)) :
    ∃ m, out = (8 / 10 : α) ^ m ∧ SuffDecrease gf w ge ((8 / 10 : α) ^ m) ∧
      ∀ i, i < m → ¬ SuffDecrease gf w ge ((8 / 10 : α) ^ i) := by
  simp only [backtracking, npNorm] at h
  rw [hs] at h
  rw [show (1 : α) = (8 / 10 : α) ^ 0 by rw [pow_zero]] at h
  obtain ⟨m, _, hout, hstop, hloop⟩ := backtracking_loop_first gf w ge (gf w) (normSq ge)
    fuel 0 out h
  refine ⟨m, hout, not_lt.1 hstop, ?_⟩
  intro i him
  exact not_le.2 (hloop i (Nat.zero_le i) him)

/-! ### Zero-vector and zero-matrix lemmas -/

theorem dot_replicate_zero_right (v : Vec α) : ∀ n, dot v (List.replicate n (0 : α)) = 0 := by
  induction v with
  | nil => intro n; cases n <;> simp [dot]
  | cons a v ih =>
    intro n
    cases n with
    | zero => simp [dot]
    | succ m => simpa [List.replicate_succ, dot_cons] using ih m

theorem mulVec_zeroMat (n : ℕ) (v : Vec α) :
    mulVec (zeroMat n) v = List.replicate n 0 := by
  simp only [mulVec, zeroMat, List.map_replicate, dot_replicate_zero_left]

theorem mulVec_replicate_zero (M : Mat α) (n : ℕ) :
    mulVec M (List.replicate n (0 : α)) = List.replicate M.length 0 := by
  simp only [mulVec]
  induction M with
  | nil => rfl
  | cons row M ih => simp [List.replicate_succ, dot_replicate_zero_right, ih]

/-! ### Claim theorems -/

/-- C4: for every valid input (total, dimension-correct gradient oracle and a
non-negative iteration count), `gradient_descent` performs exactly
`max_its` update steps with no early stopping, so the returned history has
length `max_its + 1`. -/
theorem C4_gd_history_length (gradF : Vec α → Option (Vec α)) (sqrtF : α → α)
    (rnd : ℕ → α) (w0 : α ⊕ List α) (max_its : ℕ) (version : String) (alpha : α)
    (htot : ∀ v, ∃ ge, gradF v = some ge ∧ ge.length = v.length) :
    ∃ hst, gradient_descent gradF sqrtF rnd w0 (max_its : ℤ) version alpha = .ok hst ∧
      hst.length = max_its + 1 := by
  obtain ⟨rest, hit⟩ := gdIter_total_ok gradF sqrtF rnd alpha version htot
    (max_its : ℤ).toNat 0 (toColVec w0)
  refine ⟨toColVec w0 :: rest, gradient_descent_of_gdIter _ _ _ _ _ _ _ _ hit, ?_⟩
  have hlen := gdIter_ok_length _ _ _ _ _ _ _ _ _ hit
  simp [hlen, Int.toNat_natCast]

/-- Witness for C4: the quadratic objective scenario, two iterations. -/
theorem C4_gd_history_length_witness :
    ∃ hst, gradient_descent (α := ℚ) (fun v => some (v.map (fun x => 2 * x)))
      (fun _ => 0) (fun _ => 0) (.inr [5]) ((2 : ℕ) : ℤ) "unnormalized" (1 / 10) = .ok hst ∧
      hst.length = 2 + 1 :=
  C4_gd_history_length _ _ _ _ 2 _ _ (fun v => ⟨v.map (fun x => 2 * x), rfl, by simp⟩)

/-- C5: for both optimizers, the first history element is the coerced initial
point, and every history element has the dimension of the coerced initial
point (`pinvF` is assumed to preserve the row count, as `np.linalg.pinv` does
on square input). -/
theorem C5_history_head_and_dims (gradF : Vec α → Option (Vec α)) (sqrtF : α → α)
    (rnd : ℕ → α) (g : Vec α → Option α) (gradFn : Vec α → Option (Vec α))
    (hessF : Vec α → Option (Mat α)) (pinvF : Mat α → Mat α)
    (w0 : α ⊕ List α) (max_its max_itsn : ℤ) (version : String) (alpha epsilon : α)
    (hstg hstn : List (Vec α))
    (hpinv : ∀ M, (pinvF M).length = M.length)
    (hg : gradient_descent gradF sqrtF rnd w0 max_its version alpha = .ok hstg)
    (hn : newtons_method g gradFn hessF pinvF w0 max_itsn epsilon = .ok hstn) :
    hstg.head? = some (toColVec w0) ∧ (∀ v ∈ hstg, v.length = (toColVec w0).length) ∧
    hstn.head? = some (toColVec w0) ∧ (∀ v ∈ hstn, v.length = (toColVec w0).length) := by
  obtain ⟨rest, hit, hh⟩ := gradient_descent_ok _ _ _ _ _ _ _ _ hg
  obtain ⟨gold, restn, hgw, hitn, hhn⟩ := newtons_method_ok _ _ _ _ _ _ _ _ hn
  subst hh hhn
  refine ⟨rfl, ?_, rfl, ?_⟩
  · intro v hv
    rcases List.mem_cons.1 hv with hv | hv
    · rw [hv]
    · exact gdIter_ok_mem_length _ _ _ _ _ _ _ _ _ hit v hv
  · intro v hv
    rcases List.mem_cons.1 hv with hv | hv
    · rw [hv]
    · exact newtonIter_mem_length _ _ _ _ _ hpinv _ _ _ _ hitn v hv

/-- Witness for C5: concrete runs of both optimizers from the initial point
`[4]`. -/
theorem C5_history_head_and_dims_witness :
    [[4], [16/5]].head? = some (toColVec (α := ℚ) (.inr [4])) ∧
    (∀ v ∈ [[(4:ℚ)], [16/5]], v.length = (toColVec (α := ℚ) (.inr [4])).length) ∧
    [[4]].head? = some (toColVec (α := ℚ) (.inr [4])) ∧
    (∀ v ∈ [[(4:ℚ)]], v.length = (toColVec (α := ℚ) (.inr [4])).length) := by
  refine C5_history_head_and_dims (fun v => some (v.map (fun x => 2 * x))) (fun _ => 0)
    (fun _ => 0) (fun v => some (normSq v)) (fun v => some (v.map (fun x => 2 * x)))
    (fun _ => some [[2]]) (fun M => M) (.inr [4]) 1 1 "unnormalized" (1 / 10) 0 _ _
    (fun M => rfl) ?_ ?_
  · have hnv : ("unnormalized" : String) ≠ "normalized" := by decide
    norm_num [gradient_descent, gdIter, gdStep, gdDirection, toColVec, vsub, smul, if_neg hnv]
  · norm_num [newtons_method, newtonIter, newtonStep, toColVec, vsub, smul, mulVec,
      matAdd, smulMat, eye, dot, normSq, Function.comp, List.range_succ]

/-- C1: gradient descent step invariant: whenever the run returns a history,
consecutive entries satisfy `history[k+1] = history[k] - alpha * direction_k`,
where `direction_k` is the raw gradient at `history[k]` for the default
version, and for `version = "normalized"` it is the gradient divided by its
Euclidean norm - a unit-norm vector whenever that norm is nonzero and the
square root is exact at the gradient (the zero-norm perturbation edge case
apart). -/
theorem C1_gd_step_invariant (gf : Vec α → Vec α) (sqrtF : α → α) (rnd : ℕ → α)
    (w0 : α ⊕ List α) (max_its : ℤ) (version : String) (alpha : α) (hst : List (Vec α))
    (hrun : gradient_descent (fun v => some (gf v)) sqrtF rnd w0 max_its version alpha =
      .ok hst) :
    ∀ (k : ℕ) (w₁ w₂ : Vec α), hst[k]? = some w₁ → hst[k + 1]? = some w₂ →
      w₂ = vsub w₁ (smul alpha (gdDirection sqrtF version (rnd k) (gf w₁))) ∧
      (version ≠ "normalized" → gdDirection sqrtF version (rnd k) (gf w₁) = gf w₁) ∧
      (version = "normalized" → sqrtF (normSq (gf w₁)) ≠ 0 →
        sqrtF (normSq (gf w₁)) * sqrtF (normSq (gf w₁)) = normSq (gf w₁) →
        normSq (gdDirection sqrtF version (rnd k) (gf w₁)) = 1) := by
  obtain ⟨rest, hit, hh⟩ := gradient_descent_ok _ _ _ _ _ _ _ _ hrun
  subst hh
  intro k w₁ w₂ h₁ h₂
  refine ⟨?_, ?_, ?_⟩
  · have hstep := gdIter_consecutive gf sqrtF rnd alpha version _ 0 _ _ hit k w₁ w₂ h₁ h₂
    rw [Nat.zero_add] at hstep
    rw [hstep]
    rfl
  · intro hv
    simp [gdDirection, if_neg hv]
  · intro hv hnz hsq
    simp only [gdDirection, if_pos hv, gdGradNorm, npNorm]
    rw [if_neg hnz, normSq_vdivs, hsq]
    have hnsq : normSq (gf w₁) ≠ 0 := by
      intro h0
      rw [h0] at hsq hnz
      exact hnz (mul_self_eq_zero.1 hsq)
    exact div_self hnsq

/-- Witness for C1: a normalized run with constant gradient `[3, 4]` of norm 5
starting from `[0, 0]`, one iteration with steplength 1. -/
theorem C1_gd_step_invariant_witness :
    [-(3/5 : ℚ), -(4/5)] = vsub [0, 0]
        (smul 1 (gdDirection (α := ℚ) (fun _ => 5) "normalized" 0 [3, 4])) ∧
    ("normalized" ≠ "normalized" →
      gdDirection (α := ℚ) (fun _ => 5) "normalized" 0 [3, 4] = [3, 4]) ∧
    ("normalized" = "normalized" → (5 : ℚ) ≠ 0 → (5 : ℚ) * 5 = normSq [3, 4] →
      normSq (gdDirection (α := ℚ) (fun _ => 5) "normalized" 0 [3, 4]) = 1) := by
  refine C1_gd_step_invariant (fun _ => [3, 4]) (fun _ => 5) (fun _ => 0) (.inr [0, 0])
    1 "normalized" 1 [[0, 0], [-(3/5), -(4/5)]] ?_ 0 [0, 0] [-(3/5), -(4/5)] rfl rfl
  norm_num [gradient_descent, gdIter, gdStep, gdDirection, gdGradNorm, npNorm, normSq,
    dot, toColVec, vsub, smul, vdivs]

/-- C8: gradient descent is deterministic on the non-random path: a successful
run with `version` other than `"normalized"`, or a normalized run whose
gradient has nonzero norm at every history point, returns the same history for
any randomness source. -/
theorem C8_gd_deterministic (gradF : Vec α → Option (Vec α)) (sqrtF : α → α)
    (rnd₁ rnd₂ : ℕ → α) (w0 : α ⊕ List α) (max_its : ℤ) (version : String) (alpha : α)
    (hst : List (Vec α))
    (hrun : gradient_descent gradF sqrtF rnd₁ w0 max_its version alpha = .ok hst)
    (hnz : version = "normalized" →
      ∀ v ∈ hst, ∀ ge, gradF v = some ge → npNorm sqrtF ge ≠ 0) :
    gradient_descent gradF sqrtF rnd₂ w0 max_its version alpha = .ok hst := by
  obtain ⟨rest, hit, hh⟩ := gradient_descent_ok _ _ _ _ _ _ _ _ hrun
  subst hh
  exact gradient_descent_of_gdIter _ _ _ _ _ _ _ _
    (gdIter_rnd_irrel _ _ rnd₁ rnd₂ _ _ _ 0 0 _ _ hit hnz)

/-- Witness for C8: two different randomness sources produce the same
unnormalized history. -/
theorem C8_gd_deterministic_witness :
    gradient_descent (α := ℚ) (fun v => some (v.map (fun x => 2 * x))) (fun _ => 0)
      (fun k => k + 7) (.inr [5]) 1 "unnormalized" (1 / 10) = .ok [[5], [4]] := by
  refine C8_gd_deterministic _ _ (fun _ => 0) _ _ _ _ _ _ ?_ ?_
  · have hnv : ("unnormalized" : String) ≠ "normalized" := by decide
    norm_num [gradient_descent, gdIter, gdStep, gdDirection, toColVec, vsub, smul, if_neg hnv]
  · intro hv
    exact absurd hv (by decide)

/-- C2: a successful Newton run has at most `max_its + 1` history entries, and
a strictly shorter history means the run ejected: at the last recorded point
the computed candidate's objective value strictly exceeds the objective value
of the last history entry, and that candidate was not appended. -/
theorem C2_newton_early_exit (g : Vec α → Option α) (gradF : Vec α → Option (Vec α))
    (hessF : Vec α → Option (Mat α)) (pinvF : Mat α → Mat α)
    (w0 : α ⊕ List α) (max_its : ℤ) (epsilon : α) (hst : List (Vec α))
    (hrun : newtons_method g gradF hessF pinvF w0 max_its epsilon = .ok hst) :
    hst.length ≤ max_its.toNat + 1 ∧
    (hst.length < max_its.toNat + 1 →
      ∃ lw, hst.getLast? = some lw ∧ ∃ gv hv gl gn,
        gradF lw = some gv ∧ hessF lw = some hv ∧ g lw = some gl ∧
        g (newtonStep pinvF epsilon hv gv lw) = some gn ∧ gl < gn) := by
  obtain ⟨gold, rest, hgw, hit, hh⟩ := newtons_method_ok _ _ _ _ _ _ _ _ hrun
  subst hh
  constructor
  · simpa [Nat.succ_le_succ_iff] using newtonIter_ok_length_le _ _ _ _ _ _ _ _ _ hit
  · intro hlt
    have hlen : rest.length < max_its.toNat := by simpa using hlt
    exact newtonIter_divergence _ _ _ _ _ _ _ _ _ hgw hit hlen

/-- Witness for C2: a diverging Newton run on the objective `normSq` from
`[0]` with a mis-scaled inverse, ejecting on the first iteration. -/
theorem C2_newton_early_exit_witness :
    [[(0:ℚ)]].length ≤ (5 : ℤ).toNat + 1 ∧
    ([[(0:ℚ)]].length < (5 : ℤ).toNat + 1 →
      ∃ lw, [[(0:ℚ)]].getLast? = some lw ∧ ∃ gv hv gl gn,
        (fun _ : Vec ℚ => some [(1:ℚ)]) lw = some gv ∧
        (fun _ : Vec ℚ => some [[(1:ℚ)]]) lw = some hv ∧
        (fun v : Vec ℚ => some (normSq v)) lw = some gl ∧
        (fun v : Vec ℚ => some (normSq v)) (newtonStep (fun M => M) 0 hv gv lw) = some gn ∧
        gl < gn) := by
  refine C2_newton_early_exit (fun v => some (normSq v)) (fun _ => some [1])
    (fun _ => some [[1]]) (fun M => M) (.inr [0]) 5 0 [[0]] ?_
  norm_num [newtons_method, newtonIter, newtonStep, toColVec, vsub, smul, mulVec,
    matAdd, smulMat, eye, dot, normSq, Function.comp, List.range_succ]

/-- C3: each Newton step computes the next iterate as
`w - pinv(Hessian(w) + epsilon*I) . gradient(w)`; the default damping is
`10^-5`; and with a Moore-Penrose pseudo-inverse (second Penrose identity,
with the correct shape) a damped Hessian that is exactly the zero matrix -
the extreme singular case - still yields the finite least-norm update `w`
instead of a failure. -/
theorem C3_newton_pinv_step (g : Vec α → Option α) (gradF : Vec α → Option (Vec α))
    (hessF : Vec α → Option (Mat α)) (pinvF : Mat α → Mat α)
    (w0 : α ⊕ List α) (max_its : ℤ) (epsilon : α) (hst : List (Vec α))
    (hrun : newtons_method g gradF hessF pinvF w0 max_its epsilon = .ok hst) :
    (∀ (i : ℕ) (w₁ w₂ : Vec α), hst[i]? = some w₁ → hst[i + 1]? = some w₂ →
      ∃ gv hv, gradF w₁ = some gv ∧ hessF w₁ = some hv ∧
        w₂ = vsub w₁ (mulVec (pinvF (matAdd hv (smulMat epsilon (eye w₁.length)))) gv)) ∧
    nm_default_epsilon (α := α) = 1 / 10 ^ 5 ∧
    (∀ (pinvF₂ : Mat α → Mat α) (epsilon₂ : α) (hv : Mat α) (gv w : Vec α) (n : ℕ),
      w.length = n →
      matAdd hv (smulMat epsilon₂ (eye n)) = zeroMat n →
      (∀ v, mulVec (pinvF₂ (zeroMat n)) (mulVec (zeroMat n)
          (mulVec (pinvF₂ (zeroMat n)) v)) = mulVec (pinvF₂ (zeroMat n)) v) →
      (pinvF₂ (zeroMat n)).length = n →
      newtonStep pinvF₂ epsilon₂ hv gv w = w) := by
  obtain ⟨gold, rest, hgw, hit, hh⟩ := newtons_method_ok _ _ _ _ _ _ _ _ hrun
  subst hh
  refine ⟨?_, rfl, ?_⟩
  · intro i w₁ w₂ h₁ h₂
    obtain ⟨gv, hv, hg, hhs, hstep⟩ :=
      newtonIter_consecutive _ _ _ _ _ _ _ _ _ hit i w₁ w₂ h₁ h₂
    exact ⟨gv, hv, hg, hhs, by rw [hstep]; rfl⟩
  · intro pinvF₂ epsilon₂ hv gv w n hwn hdamp hpen hPl
    have hzero : mulVec (pinvF₂ (zeroMat n)) gv = List.replicate n 0 := by
      have h1 := hpen gv
      rw [mulVec_zeroMat, mulVec_replicate_zero, hPl] at h1
      exact h1.symm
    rw [newtonStep, hwn, hdamp, hzero, ← hwn, vsub_replicate_zero]

/-- Witness for C3: a two-iteration run on `normSq` (with the exact inverse as
pseudo-inverse) for the step-shape part, and the 1-by-1 zero damped Hessian
for the singular part. -/
theorem C3_newton_pinv_step_witness :
    (∀ (i : ℕ) (w₁ w₂ : Vec ℚ), [[(4:ℚ)], [0], [0]][i]? = some w₁ →
      [[(4:ℚ)], [0], [0]][i + 1]? = some w₂ →
      ∃ gv hv, (fun v : Vec ℚ => some (v.map (fun x => 2 * x))) w₁ = some gv ∧
        (fun _ : Vec ℚ => some [[(2:ℚ)]]) w₁ = some hv ∧
        w₂ = vsub w₁ (mulVec ((fun _ : Mat ℚ => [[(1/2 : ℚ)]])
          (matAdd hv (smulMat 0 (eye w₁.length)))) gv)) ∧
    nm_default_epsilon (α := ℚ) = 1 / 10 ^ 5 ∧
    (∀ (pinvF₂ : Mat ℚ → Mat ℚ) (epsilon₂ : ℚ) (hv : Mat ℚ) (gv w : Vec ℚ) (n : ℕ),
      w.length = n →
      matAdd hv (smulMat epsilon₂ (eye n)) = zeroMat n →
      (∀ v, mulVec (pinvF₂ (zeroMat n)) (mulVec (zeroMat n)
          (mulVec (pinvF₂ (zeroMat n)) v)) = mulVec (pinvF₂ (zeroMat n)) v) →
      (pinvF₂ (zeroMat n)).length = n →
      newtonStep pinvF₂ epsilon₂ hv gv w = w) := by
  refine C3_newton_pinv_step (fun v => some (normSq v))
    (fun v => some (v.map (fun x => 2 * x))) (fun _ => some [[2]])
    (fun _ => [[1/2]]) (.inr [4]) 2 0 [[4], [0], [0]] ?_
  norm_num [newtons_method, newtonIter, newtonStep, toColVec, vsub, smul, mulVec,
    matAdd, smulMat, eye, dot, normSq, Function.comp, List.range_succ]

/-- C6: when `backtracking` terminates, the returned steplength is the first
element of the sequence `1, 0.8, 0.8^2, ...` satisfying the
sufficient-decrease condition; in particular the returned steplength
satisfies it (the square root is assumed exact at `normSq grad_eval`, so that
`norm(grad_eval)^2 = normSq grad_eval`). -/
theorem C6_backtracking_sufficient_decrease (gf : Vec α → α) (sqrtF : α → α)
    (w ge : Vec α) (fuel : ℕ) (alphaOut : α)
    (hs : sqrtF (normSq ge) ^ 2 = normSq ge)
    (h : backtracking (fun v => some (gf v)) sqrtF w ge fuel = some (.ok alphaOut)) :
    SuffDecrease gf w ge alphaOut ∧
    ∃ m, alphaOut = (8 / 10 : α) ^ m ∧
      ∀ i, i < m → ¬ SuffDecrease gf w ge ((8 / 10 : α) ^ i) := by
  obtain ⟨m, hout, hsd, hfirst⟩ := backtracking_ok gf sqrtF w ge fuel alphaOut hs h
  exact ⟨by rw [hout]; exact hsd, m, hout, hfirst⟩

/-- Witness for C6: the quadratic objective at `w = [1]` with gradient `[2]`;
the line search stops at the fifth trial steplength `0.8^4 = 256/625`. -/
theorem C6_backtracking_sufficient_decrease_witness :
    SuffDecrease (fun v : Vec ℚ => normSq v) [1] [2] (256 / 625) ∧
    ∃ m, (256 / 625 : ℚ) = (8 / 10 : ℚ) ^ m ∧
      ∀ i, i < m → ¬ SuffDecrease (fun v : Vec ℚ => normSq v) [1] [2] ((8 / 10 : ℚ) ^ i) := by
  refine C6_backtracking_sufficient_decrease (fun v => normSq v) (fun _ => 2) [1] [2]
    10 (256 / 625) (by norm_num [normSq, dot]) ?_
  norm_num [backtracking, backtracking_loop, npNorm, normSq, dot, vsub, smul]

theorem gAbs_loop_runs_forever : ∀ (fuel : ℕ) (a : ℚ), 0 < a →
    backtracking_loop (fun v => some (gAbsF v)) [0] [1] 0 1 fuel a = none := by
  intro fuel
  induction fuel with
  | zero => intro a ha; rw [backtracking_loop]
  | succ fuel ih =>
    intro a ha
    have hval : gAbsF (vsub [0] (smul a [1])) = a := by
      simp [gAbsF, vsub, smul, abs_of_pos ha]
    rw [backtracking_loop]
    simp only [hval]
    rw [if_pos (show (0 : ℚ) - a * (1 / 2) * 1 < a by linarith)]
    exact ih _ (by positivity)

/-- C7: the backtracking shrink loop has no iteration bound: for the objective
`|v 0|` at `w = [0]` with supplied gradient `[1]`, no trial steplength
`0.8^m` ever satisfies the sufficient-decrease condition, and the loop runs
forever (it is still running after any number of tests). -/
theorem C7_backtracking_no_bound :
    (∀ m : ℕ, ¬ SuffDecrease gAbsF [0] [1] ((8 / 10 : ℚ) ^ m)) ∧
    (∀ fuel : ℕ, backtracking (fun v => some (gAbsF v)) (fun x => x) [0] [1] fuel = none) := by
  constructor
  · intro m hsd
    have ha : (0 : ℚ) < (8 / 10) ^ m := pow_pos (by norm_num) m
    unfold SuffDecrease at hsd
    have hval : gAbsF (vsub [0] (smul ((8 / 10 : ℚ) ^ m) [1])) = (8 / 10 : ℚ) ^ m := by
      simp [gAbsF, vsub, smul, abs_of_pos ha]
    rw [hval] at hsd
    have h1 : gAbsF [0] = 0 := by simp [gAbsF]
    have h2 : normSq [(1 : ℚ)] = 1 := by norm_num [normSq, dot]
    rw [h1, h2] at hsd
    linarith
  · intro fuel
    simp only [backtracking]
    have h0 : gAbsF [0] = 0 := by simp [gAbsF]
    simp only [h0]
    have hn : npNorm (fun x : ℚ => x) [1] ^ 2 = 1 := by norm_num [npNorm, normSq, dot]
    rw [hn]
    exact gAbs_loop_runs_forever fuel 1 one_pos

/-- Witness for C7: the fourth trial steplength fails the condition, and the
loop is still running after seven tests. -/
theorem C7_backtracking_no_bound_witness :
    ¬ SuffDecrease gAbsF [0] [1] ((8 / 10 : ℚ) ^ 3) ∧
    backtracking (fun v => some (gAbsF v)) (fun x => x) [0] [1] 7 = none :=
  ⟨C7_backtracking_no_bound.1 3, C7_backtracking_no_bound.2 7⟩

/-- Counterexample to C9: with a non-positive iteration count (`max_its = 0`)
and even a gradient oracle that raises on every call (modelling a
non-callable objective), `gradient_descent` does not raise: it returns the
one-element history `[[5]]`. -/
theorem C9_counterexample :
    gradient_descent (α := ℚ) (fun _ => none) (fun x => x) (fun _ => 0)
      (.inr [5]) 0 "unnormalized" (1 / 10 ^ 4) = .ok [[5]] := by
  norm_num [gradient_descent, gdIter, toColVec, gdIter_zero]

/-- C9 (amended): a non-positive `max_its` does not raise: `gradient_descent`
returns the one-element history for any gradient oracle, and `newtons_method`
does too provided its single upfront objective evaluation succeeds.  An error
is raised only when a failing evaluation is actually reached: the upfront
objective evaluation in `newtons_method`, or the first gradient evaluation in
`gradient_descent` when `max_its` is positive. -/
theorem C9_amended (gradF : Vec α → Option (Vec α)) (sqrtF : α → α) (rnd : ℕ → α)
    (g : Vec α → Option α) (hessF : Vec α → Option (Mat α)) (pinvF : Mat α → Mat α)
    (w0 : α ⊕ List α) (max_its : ℤ) (version : String) (alpha epsilon : α) :
    (max_its ≤ 0 →
      gradient_descent gradF sqrtF rnd w0 max_its version alpha = .ok [toColVec w0]) ∧
    (max_its ≤ 0 → ∀ gold, g (toColVec w0) = some gold →
      newtons_method g gradF hessF pinvF w0 max_its epsilon = .ok [toColVec w0]) ∧
    (g (toColVec w0) = none →
      newtons_method g gradF hessF pinvF w0 max_its epsilon = .error ()) ∧
    (0 < max_its → gradF (toColVec w0) = none →
      gradient_descent gradF sqrtF rnd w0 max_its version alpha = .error ()) := by
  refine ⟨?_, ?_, ?_, ?_⟩
  · intro hle
    simp only [gradient_descent, Int.toNat_of_nonpos hle, gdIter_zero]
  · intro hle gold hgw
    simp only [newtons_method, hgw, Int.toNat_of_nonpos hle, newtonIter_zero]
  · intro hgw
    simp only [newtons_method, hgw]
  · intro hpos hgnone
    have h1 : max_its.toNat = (max_its.toNat - 1) + 1 := by omega
    simp only [gradient_descent]
    rw [h1, gdIter, hgnone]

/-- Witness for the amended C9: a negative iteration count returns the
initial history even with an always-raising gradient oracle, and a raising
objective makes `newtons_method` raise. -/
theorem C9_amended_witness :
    gradient_descent (α := ℚ) (fun _ => none) (fun x => x) (fun _ => 0)
      (.inr [5]) (-3) "unnormalized" (1 / 10 ^ 4) = .ok [toColVec (.inr [5])] ∧
    newtons_method (α := ℚ) (fun _ => none) (fun _ => none) (fun _ => none)
      (fun M => M) (.inr [5]) 4 (1 / 10 ^ 5) = .error () :=
  ⟨(C9_amended (fun _ => none) (fun x => x) (fun _ => 0) (fun _ => none) (fun _ => none)
      (fun M => M) (.inr [5]) (-3) "unnormalized" (1 / 10 ^ 4) (1 / 10 ^ 5)).1
      (by norm_num),
   (C9_amended (fun _ => none) (fun x => x) (fun _ => 0) (fun _ => none) (fun _ => none)
      (fun M => M) (.inr [5]) 4 "unnormalized" (1 / 10 ^ 4) (1 / 10 ^ 5)).2.2.1 rfl⟩

/-- Counterexample to C10: when the gradient is the zero vector `[0]` and the
random draw is exactly `1/2` (a value `np.random.rand` can return), the
"guarded" divisor is `0 + 10^-6 * sign(0) = 0`: the norm is NOT replaced by a
nonzero value, and the subsequent componentwise division divides by zero. -/
theorem C10_counterexample :
    gdGradNorm (α := ℚ) (fun _ => 0) (1 / 2) [0] = 0 ∧
    (0 : ℚ) ≤ 1 / 2 ∧ (1 / 2 : ℚ) < 1 := by
  norm_num [gdGradNorm, npNorm, normSq, dot, npSign]

/-- C10 (amended): with an exact square root at zero, when the gradient at the
current iterate is the zero vector the guard replaces the zero norm by
`10^-6 * sign(2*rand - 1)`, which is nonzero whenever the draw is not exactly
`1/2`; and (in exact arithmetic, for any draw) the resulting direction is the
zero vector, so the step leaves the iterate unchanged. -/
theorem C10_amended (sqrtF : α → α) (r alpha : α) (w : Vec α) (n : ℕ)
    (hs0 : sqrtF 0 = 0) (hn : n = w.length) :
    (2 * r - 1 ≠ 0 →
      gdGradNorm sqrtF r (List.replicate n (0 : α)) = 1 / 10 ^ 6 * npSign (2 * r - 1) ∧
      gdGradNorm sqrtF r (List.replicate n (0 : α)) ≠ 0) ∧
    gdDirection sqrtF "normalized" r (List.replicate n (0 : α)) = List.replicate n 0 ∧
    gdStep sqrtF "normalized" r alpha w (List.replicate n (0 : α)) = w := by
  have hnorm : npNorm sqrtF (List.replicate n (0 : α)) = 0 := by
    rw [npNorm, normSq_replicate_zero, hs0]
  have hdir : gdDirection sqrtF "normalized" r (List.replicate n (0 : α)) =
      List.replicate n 0 := by
    rw [gdDirection, if_pos rfl, vdivs_replicate_zero]
  refine ⟨?_, hdir, ?_⟩
  · intro hr
    have hsign : npSign (2 * r - 1) ≠ 0 := by
      rw [npSign]
      rcases lt_trichotomy (0 : α) (2 * r - 1) with h | h | h
      · rw [if_pos h]; norm_num
      · exact absurd h.symm hr
      · rw [if_neg (by linarith), if_pos h]; norm_num
    constructor
    · simp only [gdGradNorm, hnorm, eq_self_iff_true, if_true, zero_add]
    · simp only [gdGradNorm, hnorm, eq_self_iff_true, if_true, zero_add]
      exact mul_ne_zero (by positivity) hsign
  · rw [gdStep, hdir, smul_replicate_zero, hn, vsub_replicate_zero]

/-- Witness for the amended C10: draw 0, iterate `[3, 7]`. -/
theorem C10_amended_witness :
    ((2 * 0 - 1 : ℚ) ≠ 0 →
      gdGradNorm (α := ℚ) (fun _ => 0) 0 (List.replicate 2 0) =
        1 / 10 ^ 6 * npSign (2 * 0 - 1) ∧
      gdGradNorm (α := ℚ) (fun _ => 0) 0 (List.replicate 2 0) ≠ 0) ∧
    gdDirection (α := ℚ) (fun _ => 0) "normalized" 0 (List.replicate 2 0) =
      List.replicate 2 0 ∧
    gdStep (α := ℚ) (fun _ => 0) "normalized" 0 1 [3, 7] (List.replicate 2 0) = [3, 7] :=
  C10_amended (fun _ => 0) 0 1 [3, 7] 2 rfl rfl
